import Mathlib

/-!
Verification of the IQR outlier detector (`detect_outliers.py`).

The detector `detectar_outliers` takes a tabular dataset and an IQR
multiplier, and for every numeric column with at least one outlier emits a
record with the outlier count, percentage, rounded bounds and the list of
offending row indices.

We embed the dataset model and the detector over `ℚ`.  A cell is either a
numeric value, a non-numeric value, or missing (NaN); a column carries its
dtype classification (numeric or not), which in pandas comes with the
loaded frame.
-/

/-- A single cell of the table: a numeric value, a non-numeric value
(e.g. a string), or a missing entry (NaN). -/
inductive CellValue where
  | num (q : ℚ)
  | str (s : String)
  | missing
deriving DecidableEq

/-- The numeric content of a cell, `none` for missing / non-numeric cells.
pandas propagates NaN through comparisons as `False`, so missing cells are
never selected by the outlier mask. -/
def cellNum : CellValue → Option ℚ
  | .num q => some q
  | _ => none

/-- A column: its name, its dtype classification (`isNumeric` mirrors
membership in `df.select_dtypes(include ...)`), and its cells in row order. -/
structure Column where
  name : String
  isNumeric : Bool
  values : List CellValue
deriving DecidableEq

/-- A dataset: the row count (`len(df)`) and the columns in declaration
order.  Row `i` of a column is entry `i` of its `values` list. -/
structure Dataset where
  nRows : ℕ
  cols : List Column
deriving DecidableEq

/-- Well-formedness: every column has exactly one cell per row. -/
def Dataset.WF (df : Dataset) : Prop :=
  ∀ c ∈ df.cols, c.values.length = df.nRows

/-- The non-missing numeric values of a column, in row order
(`df[col].dropna()`). -/
def nonMissing (cells : List CellValue) : List ℚ :=
  cells.filterMap cellNum

/-- Modelled from the spec: `Series.quantile` is external library code
(pandas); its default interpolation is the linear method of
`numpy.percentile`, which the spec transcribes in §4.1.  numpy computes the
virtual index `pos = p·(n−1)`, takes `lo = floor(pos)` and the next index
clipped to `n − 1`, and interpolates `s[lo] + g·(s[hi] − s[lo])` with
`g = pos − floor(pos)`. -/
def quantileLin (vals : List ℚ) (p : ℚ) : ℚ :=
  let s := List.insertionSort (· ≤ ·) vals
  let n := vals.length
  let pos := p * ((n : ℚ) - 1)
  let lo := (⌊pos⌋).toNat
  let hi := min (lo + 1) (n - 1)
  let g := pos - ((⌊pos⌋ : ℤ) : ℚ)
  s.getD lo 0 + g * (s.getD hi 0 - s.getD lo 0)

/-- The quantile exactly as the spec words it (§4.1 step 2): sort the
values, `pos = p × (n − 1)`, `lo = floor(pos)`, `hi = ceil(pos)`,
`frac = pos − lo`, result `sorted[lo] + frac × (sorted[hi] − sorted[lo])`. -/
def quantileSpec (vals : List ℚ) (p : ℚ) : ℚ :=
  let s := List.insertionSort (· ≤ ·) vals
  let n := vals.length
  let pos := p * ((n : ℚ) - 1)
  let lo := (⌊pos⌋).toNat
  let hi := (⌈pos⌉).toNat
  let frac := pos - ((⌊pos⌋ : ℤ) : ℚ)
  s.getD lo 0 + frac * (s.getD hi 0 - s.getD lo 0)

/-- Python `round` to an integer: round-half-to-even (banker's rounding). -/
def roundHalfEven (x : ℚ) : ℤ :=
  let f := ⌊x⌋
  let r := x - (f : ℚ)
  if r < 1/2 then f
  else if 1/2 < r then f + 1
  else if f % 2 = 0 then f else f + 1

/-- Python `round(x, 2)`: round to two decimal places, half to even. -/
def round2 (x : ℚ) : ℚ := ((roundHalfEven (x * 100) : ℤ) : ℚ) / 100

/-- One row of the result frame built by `detectar_outliers`
(`Coluna`, `Qtd Outliers`, `% Outliers`, `Limite Inferior`,
`Limite Superior`, `Indices`). -/
structure OutlierRecord where
  coluna : String
  qtdOutliers : ℕ
  percOutliers : ℚ
  limiteInferior : ℚ
  limiteSuperior : ℚ
  indices : List ℕ
deriving DecidableEq

/-- Row indices whose cell holds a numeric value strictly below `lo` or
strictly above `up`; `k` is the index of the first cell.  This is the
boolean mask `(df[col] < lo) | (df[col] > up)` followed by `.index`:
missing cells compare `False` and are never selected, indices come out in
ascending row order. -/
def outlierIndicesAux (lo up : ℚ) : ℕ → List CellValue → List ℕ
  | _, [] => []
  | i, c :: cs =>
    match cellNum c with
    | some v =>
        if v < lo ∨ up < v then i :: outlierIndicesAux lo up (i + 1) cs
        else outlierIndicesAux lo up (i + 1) cs
    | none => outlierIndicesAux lo up (i + 1) cs

/-- `q1 = df[col].quantile(0.25)`. -/
def colQ1 (col : Column) : ℚ := quantileLin (nonMissing col.values) (1/4)

/-- `q3 = df[col].quantile(0.75)`. -/
def colQ3 (col : Column) : ℚ := quantileLin (nonMissing col.values) (3/4)

/-- `iqr = q3 - q1`. -/
def colIqr (col : Column) : ℚ := colQ3 col - colQ1 col

/-- `limite_inferior = q1 - multiplier * iqr` (unrounded). -/
def colLower (m : ℚ) (col : Column) : ℚ := colQ1 col - m * colIqr col

/-- `limite_superior = q3 + multiplier * iqr` (unrounded). -/
def colUpper (m : ℚ) (col : Column) : ℚ := colQ3 col + m * colIqr col

/-- The outlier row indices of one column:
`df[(df[col] < limite_inferior) | (df[col] > limite_superior)].index`. -/
def colOutlierIndices (m : ℚ) (col : Column) : List ℕ :=
  outlierIndicesAux (colLower m col) (colUpper m col) 0 col.values

/-- The loop body of `detectar_outliers` for one numeric column: emit a
record iff the outlier count is positive.  Percentage and bounds are
rounded to two decimals only here, in the emitted record. -/
def processCol (nRows : ℕ) (m : ℚ) (col : Column) : Option OutlierRecord :=
  let idx := colOutlierIndices m col
  let qtd := idx.length
  if 0 < qtd then
    some { coluna := col.name
           qtdOutliers := qtd
           percOutliers := round2 ((qtd : ℚ) / (nRows : ℚ) * 100)
           limiteInferior := round2 (colLower m col)
           limiteSuperior := round2 (colUpper m col)
           indices := idx }
  else none

/-- `detectar_outliers(df, multiplier)`: select the numeric columns; if
there are none return an empty frame; otherwise process each numeric
column in declaration order and collect the emitted records. -/
def detectar_outliers (df : Dataset) (multiplier : ℚ) : List OutlierRecord :=
  let colunasNumericas := df.cols.filter (fun c => c.isNumeric)
  if colunasNumericas.isEmpty then []
  else colunasNumericas.filterMap (processCol df.nRows multiplier)

/-- Row indices of the non-missing cells, starting at index `k`:
specification vocabulary for "every non-missing value of the column". -/
def numIndicesAux : ℕ → List CellValue → List ℕ
  | _, [] => []
  | i, c :: cs =>
    if (cellNum c).isSome then i :: numIndicesAux (i + 1) cs
    else numIndicesAux (i + 1) cs

/-! Concrete datasets used in scenario theorems and witnesses. -/

/-- Scenario A column: `x = [1,2,3,4,5,6,7,8,9,100]`. -/
def colX : Column :=
  { name := "x", isNumeric := true,
    values := [.num 1, .num 2, .num 3, .num 4, .num 5, .num 6, .num 7, .num 8,
               .num 9, .num 100] }

/-- Scenario A dataset: ten rows, single numeric column `x`. -/
def dsA : Dataset := { nRows := 10, cols := [colX] }

/-- A numeric column with zero rows. -/
def colZero : Column := { name := "x", isNumeric := true, values := [] }

/-- A dataset with zero rows. -/
def dsZero : Dataset := { nRows := 0, cols := [colZero] }

/-- The column `x = [1,2,3,4,5]`. -/
def colV : Column :=
  { name := "x", isNumeric := true,
    values := [.num 1, .num 2, .num 3, .num 4, .num 5] }

/-- Five rows, single numeric column `x = [1,2,3,4,5]`. -/
def dsV : Dataset := { nRows := 5, cols := [colV] }

/-- A non-numeric column. -/
def colS : Column := { name := "s", isNumeric := false, values := [.str "a"] }

/-- One row, only a non-numeric column. -/
def dsS : Dataset := { nRows := 1, cols := [colS] }

/-- A numeric column whose values are all missing. -/
def colMiss : Column :=
  { name := "m", isNumeric := true, values := [.missing, .missing] }

/-- Scenario A dataset extended with a non-numeric column (same rows). -/
def dsA2 : Dataset :=
  { nRows := 10,
    cols := [colX,
             { name := "s", isNumeric := false,
               values := [.str "a", .str "b", .str "c", .str "d", .str "e",
                          .str "f", .str "g", .str "h", .str "i", .str "j"] }] }

/-! General lemmas about the embedding. -/

theorem cellNum_eq_some {c : CellValue} {v : ℚ} :
    cellNum c = some v ↔ c = .num v := by
  cases c <;> simp [cellNum]

theorem outlierIndicesAux_nil_of_none (lo up : ℚ) :
    ∀ (k : ℕ) {cells : List CellValue}, (∀ c ∈ cells, cellNum c = none) →
      outlierIndicesAux lo up k cells = []
  | _, [], _ => rfl
  | k, c :: cs, h => by
    have hc : cellNum c = none := h c (List.mem_cons_self c cs)
    have ih : outlierIndicesAux lo up (k + 1) cs = [] :=
      outlierIndicesAux_nil_of_none lo up (k + 1)
        (fun x hx => h x (List.mem_cons_of_mem c hx))
    simp [outlierIndicesAux, hc, ih]

theorem processCol_eq_none_of_no_values (n : ℕ) (m : ℚ) (col : Column)
    (h : ∀ c ∈ col.values, cellNum c = none) : processCol n m col = none := by
  have h1 : colOutlierIndices m col = [] :=
    outlierIndicesAux_nil_of_none _ _ 0 h
  simp [processCol, h1]
theorem mem_outlierIndicesAux {lo up : ℚ} :
    ∀ {cells : List CellValue} {k i : ℕ},
      i ∈ outlierIndicesAux lo up k cells ↔
        ∃ j v, cells[j]? = some (CellValue.num v) ∧ (v < lo ∨ up < v) ∧ i = k + j := by
  intro cells
  induction cells with
  | nil => intro k i; simp [outlierIndicesAux]
  | cons c cs ih =>
    intro k i
    cases hc : cellNum c with
    | some v0 =>
      have hcv : c = .num v0 := cellNum_eq_some.mp hc
      by_cases hcond : v0 < lo ∨ up < v0
      · rw [show outlierIndicesAux lo up k (c :: cs)
              = k :: outlierIndicesAux lo up (k + 1) cs by
            simp [outlierIndicesAux, hc, hcond]]
        constructor
        · intro h
          rcases List.mem_cons.mp h with h1 | h1
          · exact ⟨0, v0, by simp [hcv], hcond, by omega⟩
          · obtain ⟨j, v, hj, hv, hi⟩ := ih.mp h1
            exact ⟨j + 1, v, by simpa using hj, hv, by omega⟩
        · rintro ⟨j, v, hj, hv, hi⟩
          cases j with
          | zero =>
            simp [hcv] at hj
            subst hj
            subst hi
            exact List.mem_cons_self _ _
          | succ j =>
            refine List.mem_cons_of_mem _ (ih.mpr ⟨j, v, by simpa using hj, hv, by omega⟩)
      · rw [show outlierIndicesAux lo up k (c :: cs)
              = outlierIndicesAux lo up (k + 1) cs by
            simp [outlierIndicesAux, hc, hcond]]
        rw [ih]
        constructor
        · rintro ⟨j, v, hj, hv, hi⟩
          exact ⟨j + 1, v, by simpa using hj, hv, by omega⟩
        · rintro ⟨j, v, hj, hv, hi⟩
          cases j with
          | zero =>
            simp [hcv] at hj
            subst hj
            exact absurd hv hcond
          | succ j =>
            exact ⟨j, v, by simpa using hj, hv, by omega⟩
    | none =>
      rw [show outlierIndicesAux lo up k (c :: cs)
            = outlierIndicesAux lo up (k + 1) cs by
          simp [outlierIndicesAux, hc]]
      rw [ih]
      constructor
      · rintro ⟨j, v, hj, hv, hi⟩
        exact ⟨j + 1, v, by simpa using hj, hv, by omega⟩
      · rintro ⟨j, v, hj, hv, hi⟩
        cases j with
        | zero =>
          simp at hj
          rw [hj] at hc
          simp [cellNum] at hc
        | succ j =>
          exact ⟨j, v, by simpa using hj, hv, by omega⟩

theorem mem_colOutlierIndices {m : ℚ} {col : Column} {i : ℕ} :
    i ∈ colOutlierIndices m col ↔
      ∃ v, col.values[i]? = some (CellValue.num v)
        ∧ (v < colLower m col ∨ colUpper m col < v) := by
  unfold colOutlierIndices
  rw [mem_outlierIndicesAux]
  constructor
  · rintro ⟨j, v, hj, hv, hi⟩
    rw [show i = j by omega]
    exact ⟨v, hj, hv⟩
  · rintro ⟨v, hv, hcond⟩
    exact ⟨i, v, hv, hcond, by omega⟩
theorem sorted_getD_le {s : List ℚ} (hs : List.Sorted (· ≤ ·) s) {i j : ℕ}
    (hij : i ≤ j) (hj : j < s.length) : s.getD i 0 ≤ s.getD j 0 := by
  have hi : i < s.length := lt_of_le_of_lt hij hj
  rw [List.getD_eq_getElem s 0 hi, List.getD_eq_getElem s 0 hj]
  rcases Nat.eq_or_lt_of_le hij with h1 | h1
  · subst h1; exact le_refl _
  · exact List.pairwise_iff_getElem.mp hs i j hi hj h1

theorem quantileLin_def (vals : List ℚ) (p : ℚ) :
    quantileLin vals p =
      (List.insertionSort (· ≤ ·) vals).getD (⌊p * ((vals.length : ℚ) - 1)⌋).toNat 0
      + (p * ((vals.length : ℚ) - 1) - ((⌊p * ((vals.length : ℚ) - 1)⌋ : ℤ) : ℚ))
        * ((List.insertionSort (· ≤ ·) vals).getD
            (min ((⌊p * ((vals.length : ℚ) - 1)⌋).toNat + 1) (vals.length - 1)) 0
          - (List.insertionSort (· ≤ ·) vals).getD
              (⌊p * ((vals.length : ℚ) - 1)⌋).toNat 0) := rfl

theorem quantileLin_mono (vals : List ℚ) (hne : vals ≠ []) {p q : ℚ}
    (hp : 0 ≤ p) (hq : q ≤ 1) (hpq : p ≤ q) :
    quantileLin vals p ≤ quantileLin vals q := by
  have hn : 1 ≤ vals.length := List.length_pos.mpr hne
  have hs : List.Sorted (· ≤ ·) (List.insertionSort (· ≤ ·) vals) :=
    List.sorted_insertionSort _ vals
  have hslen : (List.insertionSort (· ≤ ·) vals).length = vals.length :=
    List.length_insertionSort _ vals
  rw [quantileLin_def vals p, quantileLin_def vals q]
  set s := List.insertionSort (· ≤ ·) vals with hsdef
  set n := vals.length with hndef
  set P := p * ((n : ℚ) - 1) with hPdef
  set Q := q * ((n : ℚ) - 1) with hQdef
  have hn1 : (0:ℚ) ≤ (n : ℚ) - 1 := by
    have h1 : (1:ℚ) ≤ (n:ℚ) := by exact_mod_cast hn
    linarith
  have hPQ : P ≤ Q := mul_le_mul_of_nonneg_right hpq hn1
  have hP0 : 0 ≤ P := mul_nonneg hp hn1
  have hQle : Q ≤ (n : ℚ) - 1 := by
    calc Q ≤ 1 * ((n:ℚ) - 1) := mul_le_mul_of_nonneg_right hq hn1
    _ = (n:ℚ) - 1 := one_mul _
  have hfP0 : 0 ≤ ⌊P⌋ := Int.floor_nonneg.mpr hP0
  have hfQtop : ⌊Q⌋ ≤ (n : ℤ) - 1 := by
    have h1 : ⌊Q⌋ ≤ ⌊(n:ℚ) - 1⌋ := Int.floor_mono hQle
    have h2 : ⌊(n:ℚ) - 1⌋ = (n:ℤ) - 1 := by
      rw [show ((n:ℚ) - 1) = (((n:ℤ) - 1 : ℤ) : ℚ) by push_cast; ring,
          Int.floor_intCast]
    omega
  have hfPQ : ⌊P⌋ ≤ ⌊Q⌋ := Int.floor_mono hPQ
  set lp := (⌊P⌋).toNat with hlpdef
  set lq := (⌊Q⌋).toNat with hlqdef
  set ip := min (lp + 1) (n - 1) with hipdef
  set iq := min (lq + 1) (n - 1) with hiqdef
  have hlpq : lp ≤ lq := by omega
  have hlq : lq ≤ n - 1 := by omega
  have hlp : lp ≤ n - 1 := le_trans hlpq hlq
  have hiptop : ip ≤ n - 1 := by omega
  have hiqtop : iq ≤ n - 1 := by omega
  have hlpip : lp ≤ ip := by omega
  have hlqiq : lq ≤ iq := by omega
  have hrange : ∀ j : ℕ, j ≤ n - 1 → j < s.length := by
    intro j hj
    omega
  have hgP0 : 0 ≤ P - ((⌊P⌋ : ℤ) : ℚ) := by
    have h1 := Int.floor_le P
    linarith
  have hgP1 : P - ((⌊P⌋ : ℤ) : ℚ) ≤ 1 := by
    have h1 := Int.lt_floor_add_one P
    push_cast at h1
    linarith
  have hgQ0 : 0 ≤ Q - ((⌊Q⌋ : ℤ) : ℚ) := by
    have h1 := Int.floor_le Q
    linarith
  have hAB : s.getD lp 0 ≤ s.getD ip 0 :=
    sorted_getD_le hs hlpip (hrange ip hiptop)
  have hABq : s.getD lq 0 ≤ s.getD iq 0 :=
    sorted_getD_le hs hlqiq (hrange iq hiqtop)
  rcases eq_or_lt_of_le hfPQ with heq | hlt
  · -- same cell: interpolate within [lp, ip]
    have hll : lq = lp := by omega
    have hii : iq = ip := by omega
    rw [hll, hii]
    have hg : P - ((⌊P⌋ : ℤ) : ℚ) ≤ Q - ((⌊Q⌋ : ℤ) : ℚ) := by
      rw [← heq]
      linarith
    have hmul := mul_nonneg (by linarith : (0:ℚ) ≤ (Q - ((⌊Q⌋ : ℤ) : ℚ)) - (P - ((⌊P⌋ : ℤ) : ℚ)))
      (by linarith : (0:ℚ) ≤ s.getD ip 0 - s.getD lp 0)
    nlinarith [hmul]
  · -- different cells: q_p ≤ s[ip] ≤ s[lq] ≤ q_q
    have hiplq : ip ≤ lq := by omega
    have hmid : s.getD ip 0 ≤ s.getD lq 0 :=
      sorted_getD_le hs hiplq (hrange lq hlq)
    have h1 : s.getD lp 0 + (P - ((⌊P⌋ : ℤ) : ℚ)) * (s.getD ip 0 - s.getD lp 0)
        ≤ s.getD ip 0 := by
      have hmul := mul_nonneg (by linarith : (0:ℚ) ≤ 1 - (P - ((⌊P⌋ : ℤ) : ℚ)))
        (by linarith : (0:ℚ) ≤ s.getD ip 0 - s.getD lp 0)
      nlinarith [hmul]
    have h2 : s.getD lq 0
        ≤ s.getD lq 0 + (Q - ((⌊Q⌋ : ℤ) : ℚ)) * (s.getD iq 0 - s.getD lq 0) := by
      have hmul := mul_nonneg hgQ0 (by linarith : (0:ℚ) ≤ s.getD iq 0 - s.getD lq 0)
      linarith
    linarith
theorem quantileLin_nil (p : ℚ) : quantileLin [] p = 0 := by
  rw [quantileLin_def]
  simp

theorem colQ1_le_colQ3 (col : Column) (hne : nonMissing col.values ≠ []) :
    colQ1 col ≤ colQ3 col :=
  quantileLin_mono _ hne (by norm_num) (by norm_num) (by norm_num)

theorem colIqr_nonneg (col : Column) : 0 ≤ colIqr col := by
  by_cases h : nonMissing col.values = []
  · have h1 : colQ1 col = 0 := by rw [colQ1, h, quantileLin_nil]
    have h3 : colQ3 col = 0 := by rw [colQ3, h, quantileLin_nil]
    rw [colIqr, h1, h3]
    norm_num
  · exact sub_nonneg.mpr (colQ1_le_colQ3 col h)

/-- C7: for every non-empty numeric column and multiplier ≥ 0 the derived
statistics satisfy lower ≤ q1 ≤ q3 ≤ upper, hence iqr ≥ 0. -/
theorem bounds_ordered (m : ℚ) (hm : 0 ≤ m) (col : Column)
    (hnum : col.isNumeric = true) (hne : nonMissing col.values ≠ []) :
    colLower m col ≤ colQ1 col ∧ colQ1 col ≤ colQ3 col
      ∧ colQ3 col ≤ colUpper m col ∧ 0 ≤ colIqr col := by
  have h13 : colQ1 col ≤ colQ3 col := colQ1_le_colQ3 col hne
  have hiqr : 0 ≤ colIqr col := colIqr_nonneg col
  have hmul : 0 ≤ m * colIqr col := mul_nonneg hm hiqr
  refine ⟨?_, h13, ?_, hiqr⟩
  · rw [colLower]; linarith
  · rw [colUpper]; linarith

/-- Witness for C7 at the Scenario A column. -/
theorem bounds_ordered_witness :
    colLower (3/2) colX ≤ colQ1 colX ∧ colQ1 colX ≤ colQ3 colX
      ∧ colQ3 colX ≤ colUpper (3/2) colX ∧ 0 ≤ colIqr colX := by
  have hne : nonMissing colX.values ≠ [] := by
    have h1 : nonMissing colX.values = [1,2,3,4,5,6,7,8,9,100] := by
      with_unfolding_all rfl
    rw [h1]
    simp
  exact bounds_ordered (3/2) (by norm_num) colX rfl hne

/-- C4: on a dataset with at least one row, for multipliers 0 ≤ m1 < m2 the
outlier index set of each numeric column at m2 is a subset of the one at m1
(wider bounds flag no more outliers). -/
theorem outlier_indices_antitone (df : Dataset) (hrows : 1 ≤ df.nRows)
    (m1 m2 : ℚ) (h1 : 0 ≤ m1) (h12 : m1 < m2) (col : Column)
    (hcol : col ∈ df.cols) (hnum : col.isNumeric = true) :
    ∀ i ∈ colOutlierIndices m2 col, i ∈ colOutlierIndices m1 col := by
  intro i hi
  rw [mem_colOutlierIndices] at hi ⊢
  obtain ⟨v, hv, hcond⟩ := hi
  refine ⟨v, hv, ?_⟩
  have hiqr : 0 ≤ colIqr col := colIqr_nonneg col
  have hmul : m1 * colIqr col ≤ m2 * colIqr col :=
    mul_le_mul_of_nonneg_right (le_of_lt h12) hiqr
  rcases hcond with hlt | hgt
  · left
    rw [colLower] at hlt ⊢
    linarith
  · right
    rw [colUpper] at hgt ⊢
    linarith

/-- Witness for C4: Scenario A at multipliers 1.5 and 3; row 9 is an outlier
at multiplier 3, hence also at multiplier 1.5. -/
theorem outlier_indices_antitone_witness :
    9 ∈ colOutlierIndices (3/2) colX := by
  have h9 : 9 ∈ colOutlierIndices 3 colX := by
    rw [show colOutlierIndices 3 colX = [9] from by with_unfolding_all rfl]
    simp
  exact outlier_indices_antitone dsA (by norm_num [dsA]) (3/2) 3 (by norm_num)
    (by norm_num) colX (by simp [dsA]) rfl 9 h9

/-- C2 (amended): the code does not raise for a zero-row dataset; every
quantile comparison over the empty column selects nothing, so `detect`
returns an empty report and signals no error. -/
theorem detectar_outliers_zero_rows (df : Dataset) (m : ℚ)
    (hwf : df.WF) (h0 : df.nRows = 0) : detectar_outliers df m = [] := by
  unfold detectar_outliers
  by_cases he : (df.cols.filter (fun c => c.isNumeric)).isEmpty
  · simp [he]
  · simp only [he, if_false]
    refine List.filterMap_eq_nil_iff.mpr (fun c hc => ?_)
    refine processCol_eq_none_of_no_values _ _ _ (fun x hx => ?_)
    have hlen : c.values.length = 0 := h0 ▸ hwf c (List.mem_of_mem_filter hc)
    rw [List.length_eq_zero.mp hlen] at hx
    cases hx

/-- Witness for C2 (amended) at the concrete zero-row dataset. -/
theorem detectar_outliers_zero_rows_witness :
    dsZero.WF ∧ detectar_outliers dsZero (3/2) = [] := by
  have hwf : dsZero.WF := by simp [Dataset.WF, dsZero, colZero]
  exact ⟨hwf, detectar_outliers_zero_rows dsZero (3/2) hwf rfl⟩

/-- C8: a dataset with rows but no numeric columns yields an empty report
and no error. -/
theorem detectar_outliers_no_numeric (df : Dataset) (m : ℚ)
    (hrows : 1 ≤ df.nRows) (h : ∀ c ∈ df.cols, c.isNumeric = false) :
    detectar_outliers df m = [] := by
  have hf : df.cols.filter (fun c => c.isNumeric) = [] :=
    List.filter_eq_nil_iff.mpr (fun c hc => by simp [h c hc])
  unfold detectar_outliers
  simp [hf]

/-- Witness for C8 at a one-row dataset with a single string column. -/
theorem detectar_outliers_no_numeric_witness :
    1 ≤ dsS.nRows ∧ detectar_outliers dsS (3/2) = [] := by
  have h : ∀ c ∈ dsS.cols, c.isNumeric = false := by simp [dsS, colS]
  exact ⟨le_refl 1, detectar_outliers_no_numeric dsS (3/2) (le_refl 1) h⟩

/-- C9: the report depends only on the row count and the numeric columns;
datasets agreeing on those produce identical reports. -/
theorem detectar_outliers_ignores_non_numeric (df df2 : Dataset) (m : ℚ)
    (hrows : 1 ≤ df.nRows) (hn : df.nRows = df2.nRows)
    (hcols : df.cols.filter (fun c => c.isNumeric)
      = df2.cols.filter (fun c => c.isNumeric)) :
    detectar_outliers df m = detectar_outliers df2 m := by
  unfold detectar_outliers
  rw [hn, hcols]

/-- Witness for C9: adding a string column to Scenario A leaves the report
unchanged. -/
theorem detectar_outliers_ignores_non_numeric_witness :
    detectar_outliers dsA2 (3/2) = detectar_outliers dsA (3/2) :=
  detectar_outliers_ignores_non_numeric dsA2 dsA (3/2)
    (by norm_num [dsA2]) (by with_unfolding_all rfl) (by with_unfolding_all rfl)

/-- C10: a numeric column whose values are all missing selects no outliers
and is omitted from the report; the computation completes normally. -/
theorem all_missing_column_omitted (n : ℕ) (m : ℚ) (col : Column)
    (hnum : col.isNumeric = true) (hmiss : ∀ c ∈ col.values, cellNum c = none) :
    colOutlierIndices m col = [] ∧ processCol n m col = none :=
  ⟨outlierIndicesAux_nil_of_none _ _ 0 hmiss,
   processCol_eq_none_of_no_values n m col hmiss⟩

/-- Witness for C10 at a two-row all-missing numeric column. -/
theorem all_missing_column_omitted_witness :
    colOutlierIndices (3/2) colMiss = [] ∧ processCol 2 (3/2) colMiss = none := by
  have h : ∀ c ∈ colMiss.values, cellNum c = none := by
    intro c hc
    simp [colMiss] at hc
    rw [hc]
    rfl
  exact all_missing_column_omitted 2 (3/2) colMiss rfl h
theorem quantileSpec_def (vals : List ℚ) (p : ℚ) :
    quantileSpec vals p =
      (List.insertionSort (· ≤ ·) vals).getD (⌊p * ((vals.length : ℚ) - 1)⌋).toNat 0
      + (p * ((vals.length : ℚ) - 1) - ((⌊p * ((vals.length : ℚ) - 1)⌋ : ℤ) : ℚ))
        * ((List.insertionSort (· ≤ ·) vals).getD (⌈p * ((vals.length : ℚ) - 1)⌉).toNat 0
          - (List.insertionSort (· ≤ ·) vals).getD
              (⌊p * ((vals.length : ℚ) - 1)⌋).toNat 0) := rfl

theorem quantileLin_eq_quantileSpec (vals : List ℚ) (hne : vals ≠ []) {p : ℚ}
    (hp : 0 ≤ p) (hp1 : p ≤ 1) : quantileLin vals p = quantileSpec vals p := by
  have hn : 1 ≤ vals.length := List.length_pos.mpr hne
  rw [quantileLin_def, quantileSpec_def]
  set s := List.insertionSort (· ≤ ·) vals with hsdef
  set n := vals.length with hndef
  set P := p * ((n : ℚ) - 1) with hPdef
  have hn1 : (0:ℚ) ≤ (n : ℚ) - 1 := by
    have h1 : (1:ℚ) ≤ (n:ℚ) := by exact_mod_cast hn
    linarith
  have hP0 : 0 ≤ P := mul_nonneg hp hn1
  have hPle : P ≤ (n : ℚ) - 1 := by
    calc P ≤ 1 * ((n:ℚ) - 1) := mul_le_mul_of_nonneg_right hp1 hn1
    _ = (n:ℚ) - 1 := one_mul _
  have hfP0 : 0 ≤ ⌊P⌋ := Int.floor_nonneg.mpr hP0
  have hcast : ((n:ℚ) - 1) = (((n:ℤ) - 1 : ℤ) : ℚ) := by push_cast; ring
  by_cases h : ((⌊P⌋ : ℤ) : ℚ) = P
  · rw [show P - ((⌊P⌋ : ℤ) : ℚ) = 0 by linarith]
    ring
  · have hlt : ((⌊P⌋ : ℤ) : ℚ) < P := lt_of_le_of_ne (Int.floor_le P) h
    have hceil : ⌈P⌉ = ⌊P⌋ + 1 := by
      refine le_antisymm ?_ ?_
      · refine Int.ceil_le.mpr ?_
        push_cast
        have h1 := Int.lt_floor_add_one P
        linarith
      · exact Int.add_one_le_iff.mpr (Int.lt_ceil.mpr hlt)
    have hPlt : P < (n : ℚ) - 1 := by
      rcases lt_or_eq_of_le hPle with h1 | h1
      · exact h1
      · exfalso
        apply h
        rw [h1, hcast, Int.floor_intCast, ← hcast]
    have htop : ⌊P⌋ + 1 ≤ (n : ℤ) - 1 := by
      rw [← hceil]
      have h1 : ⌈P⌉ ≤ ⌈(n:ℚ) - 1⌉ := Int.ceil_mono (le_of_lt hPlt)
      rw [hcast, Int.ceil_intCast] at h1
      omega
    have hidx : min ((⌊P⌋).toNat + 1) (n - 1) = (⌈P⌉).toNat := by
      omega
    rw [hidx]

/-- C5: the q1 and q3 the detector uses are exactly the spec's
linear-interpolation order-statistic quantile (sort; pos = p·(n−1);
lo = floor(pos); hi = ceil(pos); frac = pos − lo;
sorted[lo] + frac·(sorted[hi] − sorted[lo])) at p = 1/4 and p = 3/4. -/
theorem detect_quantiles_match_spec (col : Column) (hnum : col.isNumeric = true)
    (hne : nonMissing col.values ≠ []) :
    colQ1 col = quantileSpec (nonMissing col.values) (1/4)
    ∧ colQ3 col = quantileSpec (nonMissing col.values) (3/4) :=
  ⟨quantileLin_eq_quantileSpec _ hne (by norm_num) (by norm_num),
   quantileLin_eq_quantileSpec _ hne (by norm_num) (by norm_num)⟩

/-- Witness for C5 at the Scenario A column. -/
theorem detect_quantiles_match_spec_witness :
    colQ1 colX = quantileSpec (nonMissing colX.values) (1/4)
    ∧ colQ3 colX = quantileSpec (nonMissing colX.values) (3/4) := by
  have hne : nonMissing colX.values ≠ [] := by
    rw [show nonMissing colX.values = [1,2,3,4,5,6,7,8,9,100] from by
      with_unfolding_all rfl]
    simp
  exact detect_quantiles_match_spec colX rfl hne

/-- C6: a value is classified an outlier exactly when it lies strictly
outside the unrounded bounds; a value equal to a bound is not an outlier;
when iqr = 0 a value is flagged iff it differs from q1; and the 2-decimal
rounding of the bounds appears only in the emitted record. -/
theorem classification_strict_unrounded (n : ℕ) (m : ℚ) (hm : 0 ≤ m)
    (col : Column) (i : ℕ) (v : ℚ)
    (hv : col.values[i]? = some (CellValue.num v)) :
    (i ∈ colOutlierIndices m col ↔ (v < colLower m col ∨ colUpper m col < v))
    ∧ (v = colLower m col → i ∉ colOutlierIndices m col)
    ∧ (v = colUpper m col → i ∉ colOutlierIndices m col)
    ∧ (colIqr col = 0 → (i ∈ colOutlierIndices m col ↔ v ≠ colQ1 col))
    ∧ (∀ r, processCol n m col = some r →
        r.limiteInferior = round2 (colLower m col)
        ∧ r.limiteSuperior = round2 (colUpper m col)
        ∧ r.indices = colOutlierIndices m col) := by
  have hlu : colLower m col ≤ colUpper m col := by
    have hiqr := colIqr_nonneg col
    have hmul := mul_nonneg hm hiqr
    rw [colLower, colUpper, colIqr]
    rw [colIqr] at hmul hiqr
    linarith
  have hmem : i ∈ colOutlierIndices m col
      ↔ (v < colLower m col ∨ colUpper m col < v) := by
    rw [mem_colOutlierIndices]
    constructor
    · rintro ⟨w, hw, hcond⟩
      rw [hv] at hw
      have hwv : w = v := by
        have h1 := Option.some.inj hw
        cases h1
        rfl
      rw [← hwv]
      exact hcond
    · intro h
      exact ⟨v, hv, h⟩
  refine ⟨hmem, ?_, ?_, ?_, ?_⟩
  · intro hveq
    rw [hmem, hveq]
    push_neg
    exact ⟨le_refl _, hlu⟩
  · intro hveq
    rw [hmem, hveq]
    push_neg
    exact ⟨hlu, le_refl _⟩
  · intro hiqr0
    have hq3 : colQ3 col = colQ1 col := by
      rw [colIqr] at hiqr0
      linarith
    have hlow : colLower m col = colQ1 col := by
      rw [colLower, hiqr0]
      ring
    have hup : colUpper m col = colQ1 col := by
      rw [colUpper, hiqr0, hq3]
      ring
    rw [hmem, hlow, hup]
    exact lt_or_lt_iff_ne
  · intro r hr
    by_cases hq : 0 < (colOutlierIndices m col).length
    · simp only [processCol, hq, if_true, Option.some.injEq] at hr
      rw [← hr]
      exact ⟨rfl, rfl, rfl⟩
    · simp [processCol, hq] at hr

/-- Witness for C6 at the Scenario A column, row 9, value 100. -/
theorem classification_strict_unrounded_witness :
    (9 ∈ colOutlierIndices (3/2) colX
      ↔ ((100:ℚ) < colLower (3/2) colX ∨ colUpper (3/2) colX < 100))
    ∧ ((100:ℚ) = colLower (3/2) colX → 9 ∉ colOutlierIndices (3/2) colX)
    ∧ ((100:ℚ) = colUpper (3/2) colX → 9 ∉ colOutlierIndices (3/2) colX)
    ∧ (colIqr colX = 0 → (9 ∈ colOutlierIndices (3/2) colX ↔ (100:ℚ) ≠ colQ1 colX))
    ∧ (∀ r, processCol 10 (3/2) colX = some r →
        r.limiteInferior = round2 (colLower (3/2) colX)
        ∧ r.limiteSuperior = round2 (colUpper (3/2) colX)
        ∧ r.indices = colOutlierIndices (3/2) colX) :=
  classification_strict_unrounded 10 (3/2) (by norm_num) colX 9 100 rfl

theorem numIndicesAux_eq_of_crossed {lo up : ℚ} (h : up < lo) :
    ∀ (k : ℕ) (cells : List CellValue),
      outlierIndicesAux lo up k cells = numIndicesAux k cells
  | _, [] => rfl
  | k, c :: cs => by
    have ih := numIndicesAux_eq_of_crossed h (k + 1) cs
    cases hc : cellNum c with
    | some v =>
      have hcond : v < lo ∨ up < v := by
        rcases lt_or_le v lo with h1 | h1
        · exact Or.inl h1
        · exact Or.inr (lt_of_lt_of_le h h1)
      simp [outlierIndicesAux, numIndicesAux, hc, hcond, ih]
    | none =>
      simp [outlierIndicesAux, numIndicesAux, hc, ih]

theorem length_numIndicesAux :
    ∀ (k : ℕ) (cells : List CellValue),
      (numIndicesAux k cells).length = (nonMissing cells).length
  | _, [] => rfl
  | k, c :: cs => by
    have ih := length_numIndicesAux (k + 1) cs
    cases hc : cellNum c with
    | some v => simp [numIndicesAux, nonMissing, List.filterMap_cons, hc, ih]
    | none => simp [numIndicesAux, nonMissing, List.filterMap_cons, hc, ih]

theorem nonMissing_ne_nil_of_iqr_pos (col : Column) (h : 0 < colIqr col) :
    nonMissing col.values ≠ [] := by
  intro hnil
  rw [colIqr, colQ3, colQ1, hnil, quantileLin_nil, quantileLin_nil] at h
  exact lt_irrefl 0 (by linarith)

theorem crossed_bounds_of_neg_multiplier (m : ℚ) (hm : m < -(1/2))
    (col : Column) (hiqr : 0 < colIqr col) :
    colUpper m col < colLower m col := by
  rw [colLower, colUpper]
  have hdef : colIqr col = colQ3 col - colQ1 col := rfl
  nlinarith [mul_pos hiqr (show (0:ℚ) < -(1 + 2*m) by linarith)]

/-- C3 (amended): the detector performs no multiplier validation and signals
no error; a negative multiplier is used in the same bound formulas.  In
particular, for multiplier < −1/2 on a column with iqr > 0 the bounds cross
and every non-missing value of the column is flagged. -/
theorem negative_multiplier_flags_everything (m : ℚ) (hm : m < -(1/2))
    (col : Column) (hiqr : 0 < colIqr col) (n : ℕ) :
    colOutlierIndices m col = numIndicesAux 0 col.values
    ∧ ∃ r, processCol n m col = some r
        ∧ r.indices = numIndicesAux 0 col.values
        ∧ r.qtdOutliers = (nonMissing col.values).length := by
  have hcr := crossed_bounds_of_neg_multiplier m hm col hiqr
  have heq : colOutlierIndices m col = numIndicesAux 0 col.values :=
    numIndicesAux_eq_of_crossed hcr 0 col.values
  have hlen : (colOutlierIndices m col).length = (nonMissing col.values).length := by
    rw [heq, length_numIndicesAux]
  have hpos : 0 < (colOutlierIndices m col).length := by
    rw [hlen]
    exact List.length_pos.mpr (nonMissing_ne_nil_of_iqr_pos col hiqr)
  have hsome : processCol n m col
      = some { coluna := col.name,
               qtdOutliers := (colOutlierIndices m col).length,
               percOutliers :=
                 round2 (((colOutlierIndices m col).length : ℚ) / (n : ℚ) * 100),
               limiteInferior := round2 (colLower m col),
               limiteSuperior := round2 (colUpper m col),
               indices := colOutlierIndices m col } := by
    simp only [processCol, hpos, if_true]
  exact ⟨heq, _, hsome, heq, hlen⟩

/-- Witness for C3 (amended) at `x = [1,2,3,4,5]`, multiplier −1. -/
theorem negative_multiplier_flags_everything_witness :
    colOutlierIndices (-1) colV = numIndicesAux 0 colV.values
    ∧ ∃ r, processCol 5 (-1) colV = some r
        ∧ r.indices = numIndicesAux 0 colV.values
        ∧ r.qtdOutliers = (nonMissing colV.values).length := by
  have hiqr : colIqr colV = 2 := by with_unfolding_all rfl
  exact negative_multiplier_flags_everything (-1) (by norm_num) colV
    (by rw [hiqr]; norm_num) 5

/-- C1: Scenario A.  On `x = [1,2,3,4,5,6,7,8,9,100]` with multiplier 1.5
the report has exactly one record: count 1, percentage 10, bounds −3.5 and
14.5, index list `[9]`; and the intermediate statistics are q1 = 3.25,
q3 = 7.75, iqr = 4.5. -/
theorem scenarioA_report :
    detectar_outliers dsA (3/2) =
      [{ coluna := "x", qtdOutliers := 1, percOutliers := 10,
         limiteInferior := -7/2, limiteSuperior := 29/2, indices := [9] }]
    ∧ colQ1 colX = 13/4 ∧ colQ3 colX = 31/4 ∧ colIqr colX = 9/2
    ∧ colLower (3/2) colX = -7/2 ∧ colUpper (3/2) colX = 29/2 := by
  refine ⟨?_, ?_, ?_, ?_, ?_, ?_⟩ <;> with_unfolding_all rfl

/-- Counterexample to C2 as stated: on a concrete zero-row dataset the
detector does not raise; it returns normally, with the empty report. -/
theorem zero_rows_no_error_counterexample :
    detectar_outliers dsZero (3/2) = [] := by
  with_unfolding_all rfl

/-- Counterexample to C3 as stated: with the negative multiplier −1 the
detector does not raise; it returns a non-empty report computed with the
crossed bounds 4 and 2. -/
theorem negative_multiplier_no_error_counterexample :
    detectar_outliers dsV (-1) =
      [{ coluna := "x", qtdOutliers := 5, percOutliers := 100,
         limiteInferior := 4, limiteSuperior := 2, indices := [0,1,2,3,4] }] := by
  with_unfolding_all rfl
